import Mathlib

/-!
Verification of the Deadlock Detective core: a shallow embedding of the
graph data model (types.ts), the graph mutation handlers (App.tsx) and the
DFS-based deadlock detector (services/deadlockService.ts), together with
proofs of the specified properties.

The TypeScript detector is a recursive DFS closure mutating a shared
visited set, an on-stack (recursion) set, the current path and a captured
cycle accumulator.  The embedding threads that mutable state explicitly
through a `DfsState` record; the general recursion is realised with a fuel
parameter, and the fuel bound used by `detectDeadlock` is proved sufficient
(`detectDeadlockO_eq_some`), so the fuelled function agrees with the
source's unguarded recursion on every input.
-/

/-- types.ts: `enum NodeType`. -/
inductive NodeType where
  | PROCESS
  | RESOURCE
deriving DecidableEq

/-- types.ts: `interface Node`.  `x`,`y`,`vx`,`vy`,`fx`,`fy` are the
presentation-only fields used by the excluded d3 renderer; JavaScript
numbers are modelled as integers (no claim computes with them). -/
structure Node where
  id : String
  type : NodeType
  x : Int := 0
  y : Int := 0
  vx : Option Int := none
  vy : Option Int := none
  fx : Option Int := none
  fy : Option Int := none
deriving DecidableEq

/-- types.ts: `interface Edge`. -/
structure Edge where
  id : String
  source : String
  target : String
deriving DecidableEq

/-- types.ts: `interface DeadlockResult`. -/
structure DeadlockResult where
  hasDeadlock : Bool
  cycle : List String
  involvedProcesses : List String
  involvedResources : List String
deriving DecidableEq

/-- deadlockService.ts lines 5-12: the adjacency record `adj`.  Keys are
exactly the node ids (`nodes.forEach(n => { adj[n.id] = []; })`); the value
at a node id `v` is the list of targets of the edges whose source is `v`,
in edge order (`edges.forEach(e => { if (adj[e.source]) adj[e.source].push(e.target) })`).
An absent key is `none`, matching an undefined record entry. -/
def adjOf (nodes : List Node) (edges : List Edge) : String → Option (List String) :=
  fun v =>
    if nodes.any (fun n => n.id == v) then
      some ((edges.filter (fun e => e.source == v)).map (fun e => e.target))
    else
      none

/-- The mutable state captured by the `dfs` closure in deadlockService.ts:
`visited`, `recursionStack` (both JS Sets, modelled as lists queried by
membership), the current `path` array, and the `cycleNodes` accumulator. -/
structure DfsState where
  visited : List String
  recStack : List String
  path : List String
  cycleNodes : List String
deriving DecidableEq

/-- Initial detector state: all four collections empty. -/
def initState : DfsState := ⟨[], [], [], []⟩

/-- deadlockService.ts lines 25-35: the `for (const neighbor of neighbors)`
loop inside `dfs`, with `next` standing for the recursive `dfs` call.
If the neighbor is visited and on the recursion stack, a cycle is detected:
`cycleNodes = path.slice(path.indexOf(neighbor))` (the element is on the
path whenever this branch runs, so JS `indexOf`/`slice` and
`findIdx`/`drop` agree).  Otherwise a visited neighbor is skipped and an
unvisited one is recursed into, propagating a `true` result. -/
def dfsNeighborsAux (next : String → DfsState → Option (Bool × DfsState)) :
    List String → DfsState → Option (Bool × DfsState)
  | [], S => some (false, S)
  | neighbor :: rest, S =>
    if neighbor ∈ S.visited then
      if neighbor ∈ S.recStack then
        some (true, { S with cycleNodes := S.path.drop (S.path.findIdx (fun x => x == neighbor)) })
      else
        dfsNeighborsAux next rest S
    else
      match next neighbor S with
      | none => none
      | some (true, S2) => some (true, S2)
      | some (false, S2) => dfsNeighborsAux next rest S2

/-- deadlockService.ts lines 18-40: `dfs(nodeId, path)`.  On entry the
vertex is added to `visited` and `recursionStack` and pushed on `path`;
the neighbor list is `adj[nodeId] || []`; on a `false` return the vertex is
removed from the recursion stack and popped from the path.  The `Nat` fuel
realises the unguarded JS recursion; `none` (fuel exhausted) is proved
unreachable for the fuel used by `detectDeadlock`. -/
def dfsF (adj : String → Option (List String)) : Nat → String → DfsState → Option (Bool × DfsState)
  | 0, _, _ => none
  | fuel + 1, nodeId, S =>
    let S1 : DfsState :=
      { S with visited := nodeId :: S.visited,
               recStack := nodeId :: S.recStack,
               path := S.path ++ [nodeId] }
    match dfsNeighborsAux (fun v T => dfsF adj fuel v T) ((adj nodeId).getD []) S1 with
    | none => none
    | some (true, S2) => some (true, S2)
    | some (false, S2) =>
      some (false, { S2 with recStack := S2.recStack.erase nodeId, path := S2.path.dropLast })

/-- deadlockService.ts lines 42-51: the top-level loop
`for (const node of nodes) { if (!visited.has(node.id)) { if (dfs(node.id, [])) ... } }`,
iterating over the node ids, starting each DFS with a fresh empty path and
stopping at the first `true`. -/
def detectLoop (adj : String → Option (List String)) (fuel : Nat) :
    List String → DfsState → Option (Bool × DfsState)
  | [], S => some (false, S)
  | nodeId :: rest, S =>
    if nodeId ∈ S.visited then
      detectLoop adj fuel rest S
    else
      match dfsF adj fuel nodeId { S with path := [] } with
      | none => none
      | some (true, S2) => some (true, S2)
      | some (false, S2) => detectLoop adj fuel rest S2

/-- deadlockService.ts lines 56-62: `nodes.find(n => n.id === id)?.type === t`. -/
def typeIs (nodes : List Node) (t : NodeType) (v : String) : Bool :=
  match nodes.find? (fun n => n.id == v) with
  | some n => n.type == t
  | none => false

/-- Every id the DFS can ever visit: the node ids (top-level starts) and the
edge targets (recursive starts).  Its length bounds the fuel needed. -/
def detectUniv (nodes : List Node) (edges : List Edge) : List String :=
  nodes.map (fun n => n.id) ++ edges.map (fun e => e.target)

/-- deadlockService.ts lines 3-70: `detectDeadlock`, fuelled version.
Runs the top-level loop and assembles the `DeadlockResult` from the final
state (`hasDeadlock`, `cycle`, and the two kind-filtered projections of the
cycle).  Returns `none` only on fuel exhaustion, which is proved impossible
for this fuel. -/
def detectDeadlockO (nodes : List Node) (edges : List Edge) : Option DeadlockResult :=
  match detectLoop (adjOf nodes edges) ((detectUniv nodes edges).length + 1)
      (nodes.map (fun n => n.id)) initState with
  | none => none
  | some (hasCycle, S) =>
    some { hasDeadlock := hasCycle,
           cycle := S.cycleNodes,
           involvedProcesses := S.cycleNodes.filter (typeIs nodes NodeType.PROCESS),
           involvedResources := S.cycleNodes.filter (typeIs nodes NodeType.RESOURCE) }

/-- Placeholder result for the unreachable fuel-exhaustion branch. -/
def emptyResult : DeadlockResult := ⟨false, [], [], []⟩

/-- deadlockService.ts `detectDeadlock` as a total function; agrees with
`detectDeadlockO` by `detectDeadlockO_eq_some`. -/
def detectDeadlock (nodes : List Node) (edges : List Edge) : DeadlockResult :=
  (detectDeadlockO nodes edges).getD emptyResult

/-- The graph state held by App.tsx (`useState` pair `nodes`/`edges`). -/
structure Graph where
  nodes : List Node
  edges : List Edge
deriving DecidableEq

/-- App.tsx lines 19-24: `createInitialNodes`. -/
def createInitialNodes : List Node :=
  [ { id := "P1", type := NodeType.PROCESS, x := 100, y := 150 },
    { id := "P2", type := NodeType.PROCESS, x := 250, y := 150 },
    { id := "R1", type := NodeType.RESOURCE, x := 175, y := 80 },
    { id := "R2", type := NodeType.RESOURCE, x := 175, y := 220 } ]

/-- App.tsx lines 26-30: `createInitialEdges`. -/
def createInitialEdges : List Edge :=
  [ ⟨"e1", "R1", "P1"⟩, ⟨"e2", "P1", "R2"⟩, ⟨"e3", "R2", "P2"⟩ ]

/-- JS `s.slice(-4)`: the last four characters (the whole string when it is
shorter, via truncated subtraction). -/
def lastFour (s : String) : String := s.drop (s.length - 4)

/-- App.tsx lines 45-51: the id generated by `handleAddNode`:
kind prefix, per-kind count (current number of that kind plus one), and
`Date.now().toString().slice(-4)`; the clock reading is the `now` input. -/
def generatedId (nodes : List Node) (t : NodeType) (now : Nat) : String :=
  let count := (nodes.filter (fun n => n.type == t)).length + 1
  let pfx := if t == NodeType.PROCESS then "P" else "R"
  pfx ++ toString count ++ "-" ++ lastFour (toString now)

/-- App.tsx lines 44-57: `handleAddNode`.  `randX`/`randY` stand for the
two `Math.random() * 150` draws. -/
def handleAddNode (nodes : List Node) (t : NodeType) (now : Nat) (randX randY : Int) :
    List Node :=
  nodes ++ [{ id := generatedId nodes t now, type := t, x := 50 + randX, y := 50 + randY }]

/-- App.tsx lines 59-62: `handleRemoveNode` filters out the vertex with the
given id and every edge whose source or target equals it. -/
def handleRemoveNode (g : Graph) (nodeId : String) : Graph :=
  { nodes := g.nodes.filter (fun n => n.id != nodeId),
    edges := g.edges.filter (fun e => e.source != nodeId && e.target != nodeId) }

/-- Outcome of an add-edge request.  Per the error taxonomy, both rejection
paths of App.tsx `handleAddEdge` — a missing endpoint (silent early return)
and a same-kind pair (alert then return) — surface as `invalidEdge`; a
duplicate (source, target) pair is silently ignored (`duplicateIgnored`). -/
inductive AddEdgeOutcome where
  | added (e : Edge)
  | invalidEdge
  | duplicateIgnored
deriving DecidableEq

/-- App.tsx lines 64-84: `handleAddEdge`.  Looks up both endpoints with
`nodes.find`, rejects a missing endpoint or a same-kind pair leaving the
graph unchanged, silently ignores an existing (source, target) pair, and
otherwise appends an edge with id `e-` followed by the clock reading. -/
def handleAddEdge (g : Graph) (sourceId targetId : String) (now : Nat) :
    Graph × AddEdgeOutcome :=
  match g.nodes.find? (fun n => n.id == sourceId), g.nodes.find? (fun n => n.id == targetId) with
  | some sourceNode, some targetNode =>
    if sourceNode.type == targetNode.type then
      (g, AddEdgeOutcome.invalidEdge)
    else if g.edges.any (fun e => e.source == sourceId && e.target == targetId) then
      (g, AddEdgeOutcome.duplicateIgnored)
    else
      ({ g with edges := g.edges ++ [⟨"e-" ++ toString now, sourceId, targetId⟩] },
        AddEdgeOutcome.added ⟨"e-" ++ toString now, sourceId, targetId⟩)
  | _, _ => (g, AddEdgeOutcome.invalidEdge)

/-- App.tsx lines 86-88: `handleRemoveEdge`. -/
def handleRemoveEdge (g : Graph) (edgeId : String) : Graph :=
  { g with edges := g.edges.filter (fun e => e.id != edgeId) }

/-- Two successive detector invocations on the same unmutated graph. -/
def detectTwice (nodes : List Node) (edges : List Edge) : DeadlockResult × DeadlockResult :=
  (detectDeadlock nodes edges, detectDeadlock nodes edges)

/-- The default instance: the initial wait-chain graph. -/
def initialGraph : Graph := ⟨createInitialNodes, createInitialEdges⟩

/-- The minimal-deadlock edge set: the initial chain plus `P2 -> R1`. -/
def deadlockEdges : List Edge := createInitialEdges ++ [⟨"e4", "P2", "R1"⟩]

/-- A graph with a dangling edge and no vertices: removing the absent
vertex id `X` still strips the edge, so the remove is not a no-op. -/
def danglingGraph : Graph := ⟨[], [⟨"e1", "X", "Y"⟩]⟩

/-- A graph with two PROCESS vertices and an (ill-typed, pre-existing)
edge between them: a repeated connect request here is rejected as invalid
before the duplicate check is reached. -/
def sameKindDupGraph : Graph :=
  ⟨[{ id := "P1", type := NodeType.PROCESS }, { id := "P2", type := NodeType.PROCESS }],
   [⟨"e1", "P1", "P2"⟩]⟩

/-- A well-typed graph with one process, one resource and one edge between
them, for exercising the duplicate-connect path. -/
def mixedDupGraph : Graph :=
  ⟨[{ id := "P1", type := NodeType.PROCESS }, { id := "R1", type := NodeType.RESOURCE }],
   [⟨"e1", "P1", "R1"⟩]⟩

/-- Clock readings whose decimal representations end in 1111. -/
def t1 : Nat := 1759999991111

/-- A later clock reading ending in 1111. -/
def t2 : Nat := 1760000001111

/-- A still later clock reading ending in 1111. -/
def t3 : Nat := 1760000011111

/-- Node state reached by: add process (id `P1-1111`), add process
(id `P2-1111`), remove `P1-1111`.  One process named `P2-1111` is live but
the per-kind count is back to one. -/
def staleNodes : List Node :=
  (handleRemoveNode
    ⟨handleAddNode (handleAddNode [] NodeType.PROCESS t1 0 0) NodeType.PROCESS t2 0 0, []⟩
    "P1-1111").nodes

/-- A one-process node list with presentation fields left at defaults. -/
def presNodesA : List Node :=
  [ { id := "P1", type := NodeType.PROCESS },
    { id := "R1", type := NodeType.RESOURCE } ]

/-- The same ids and kinds as `presNodesA` with entirely different
positions, velocities and pinned coordinates. -/
def presNodesB : List Node :=
  [ { id := "P1", type := NodeType.PROCESS, x := 420, y := -7, vx := some 3, vy := some 4,
      fx := some 9, fy := some 11 },
    { id := "R1", type := NodeType.RESOURCE, x := -1, y := 1000, vx := some 5,
      fy := some 0 } ]

/-- Edges connecting the presentation-test vertices into a two-cycle. -/
def presEdges : List Edge := [⟨"e1", "P1", "R1"⟩, ⟨"e2", "R1", "P1"⟩]

/-- Specification-side edge relation: there is an edge from `u` to `v`. -/
def EdgeStep (edges : List Edge) (u v : String) : Prop :=
  ∃ e ∈ edges, e.source = u ∧ e.target = v

/-- The step relation the detector actually walks: `v` occurs in
`adj[u] || []`. -/
def AdjStep (adj : String → Option (List String)) (u v : String) : Prop :=
  v ∈ (adj u).getD []

/-- Specification-side directed cycle: a nonempty vertex sequence whose
consecutive elements are joined by edges, with a closing edge from the last
element back to the first. -/
def IsEdgeCycle (edges : List Edge) (c : List String) : Prop :=
  c ≠ [] ∧ List.Chain' (EdgeStep edges) c ∧
    ∃ a b, c.head? = some a ∧ c.getLast? = some b ∧ EdgeStep edges b a

/-- The directed graph contains at least one directed cycle. -/
def HasCycle (edges : List Edge) : Prop := ∃ c, IsEdgeCycle edges c

/-- Referential integrity: each edge's source and target ids occur among
the vertex ids. -/
def RefIntegrity (nodes : List Node) (edges : List Edge) : Prop :=
  ∀ e ∈ edges, (∃ n ∈ nodes, n.id = e.source) ∧ (∃ n ∈ nodes, n.id = e.target)

instance refIntegrityDecidable (nodes : List Node) (edges : List Edge) :
    Decidable (RefIntegrity nodes edges) := by
  unfold RefIntegrity
  infer_instance

/-- A vertex is black (fully explored): visited and no longer on the
recursion stack. -/
def blackV (S : DfsState) (v : String) : Prop := v ∈ S.visited ∧ v ∉ S.recStack

/-- Invariant carried between DFS events: the black set is closed under the
step relation and no black vertex lies on a cycle. -/
structure DetectInv (adj : String → Option (List String)) (S : DfsState) : Prop where
  closed : ∀ x, blackV S x → ∀ y, AdjStep adj x y → blackV S y
  acyc : ∀ x, blackV S x → ¬ Relation.TransGen (AdjStep adj) x x

/-- Path bookkeeping invariant of the DFS state: the recursion stack is
contained in the visited set and holds exactly the path elements, and the
path is a duplicate-free chain of adjacency steps through visited ids. -/
structure PathInv (adj : String → Option (List String)) (S : DfsState) : Prop where
  recSub : ∀ x ∈ S.recStack, x ∈ S.visited
  recPath : ∀ x, x ∈ S.recStack ↔ x ∈ S.path
  pathSub : ∀ x ∈ S.path, x ∈ S.visited
  nodup : S.path.Nodup
  chain : List.Chain' (AdjStep adj) S.path

/-- What a reported witness cycle satisfies: nonempty, duplicate-free,
consecutive elements adjacent, and a closing step from last to first. -/
def CycleSpec (adj : String → Option (List String)) (c : List String) : Prop :=
  c ≠ [] ∧ c.Nodup ∧ List.Chain' (AdjStep adj) c ∧
    ∃ a b, c.head? = some a ∧ c.getLast? = some b ∧ AdjStep adj b a

/-- Postcondition of a `false`-returning DFS event: recursion stack and
path restored exactly, visited set grown, black set grown, invariant kept,
cycle accumulator untouched. -/
structure FalseOut (adj : String → Option (List String)) (S S2 : DfsState) : Prop where
  recEq : S2.recStack = S.recStack
  pathEq : S2.path = S.path
  visMono : ∀ x ∈ S.visited, x ∈ S2.visited
  blackMono : ∀ x, blackV S x → blackV S2 x
  inv : DetectInv adj S2
  cycEq : S2.cycleNodes = S.cycleNodes

theorem adjStep_iff (nodes : List Node) (edges : List Edge) (u v : String) :
    AdjStep (adjOf nodes edges) u v ↔ ((∃ n ∈ nodes, n.id = u) ∧ EdgeStep edges u v) := by
  unfold AdjStep adjOf EdgeStep
  by_cases h : nodes.any (fun n => n.id == u) = true
  · simp only [h, if_true, Option.getD_some, List.mem_map, List.mem_filter]
    constructor
    · rintro ⟨e, ⟨he, hs⟩, ht⟩
      refine ⟨?_, e, he, by simpa using hs, ht⟩
      simpa [List.any_eq_true] using h
    · rintro ⟨-, e, he, hs, ht⟩
      exact ⟨e, ⟨he, by simpa using hs⟩, ht⟩
  · have h' : nodes.any (fun n => n.id == u) = false := by simpa using h
    simp only [h', Bool.false_eq_true, if_false, Option.getD_none]
    simp only [List.not_mem_nil, false_iff, not_and]
    intro hn
    exact absurd (by simpa [List.any_eq_true] using hn) h

theorem edgeStep_to_adjStep (nodes : List Node) (edges : List Edge)
    (hri : RefIntegrity nodes edges) (u v : String) (h : EdgeStep edges u v) :
    AdjStep (adjOf nodes edges) u v := by
  rcases h with ⟨e, he, hs, ht⟩
  exact (adjStep_iff nodes edges u v).2 ⟨hs ▸ (hri e he).1, ⟨e, he, hs, ht⟩⟩

theorem adjStep_to_edgeStep (nodes : List Node) (edges : List Edge) (u v : String)
    (h : AdjStep (adjOf nodes edges) u v) : EdgeStep edges u v :=
  ((adjStep_iff nodes edges u v).1 h).2

theorem DetectInv.congrBlack {adj : String → Option (List String)} {S T : DfsState}
    (hb : ∀ x, blackV S x ↔ blackV T x) (hi : DetectInv adj S) : DetectInv adj T where
  closed := fun x hx y hy => (hb y).1 (hi.closed x ((hb x).2 hx) y hy)
  acyc := fun x hx => hi.acyc x ((hb x).2 hx)

theorem black_reflTransGen {adj : String → Option (List String)} {S : DfsState}
    (hi : DetectInv adj S) {x y : String} (hx : blackV S x)
    (h : Relation.ReflTransGen (AdjStep adj) x y) : blackV S y := by
  induction h with
  | refl => exact hx
  | tail _ hstep ih => exact hi.closed _ ih _ hstep

theorem FalseOut.trans {adj : String → Option (List String)} {S T U : DfsState}
    (h1 : FalseOut adj S T) (h2 : FalseOut adj T U) : FalseOut adj S U where
  recEq := h2.recEq.trans h1.recEq
  pathEq := h2.pathEq.trans h1.pathEq
  visMono := fun x hx => h2.visMono x (h1.visMono x hx)
  blackMono := fun x hx => h2.blackMono x (h1.blackMono x hx)
  inv := h2.inv
  cycEq := h2.cycEq.trans h1.cycEq

theorem FalseOut.refl (adj : String → Option (List String)) (S : DfsState)
    (hi : DetectInv adj S) : FalseOut adj S S where
  recEq := rfl
  pathEq := rfl
  visMono := fun _ hx => hx
  blackMono := fun _ hx => hx
  inv := hi
  cycEq := rfl

theorem aux_false (adj : String → Option (List String))
    (next : String → DfsState → Option (Bool × DfsState))
    (Hfalse : ∀ u T T2, u ∉ T.visited → (∀ x ∈ T.recStack, x ∈ T.visited) →
      DetectInv adj T → next u T = some (false, T2) →
      FalseOut adj T T2 ∧ u ∈ T2.visited ∧ blackV T2 u) :
    ∀ ns S S2, (∀ x ∈ S.recStack, x ∈ S.visited) → DetectInv adj S →
      dfsNeighborsAux next ns S = some (false, S2) →
      FalseOut adj S S2 ∧ ∀ n ∈ ns, blackV S2 n := by
  intro ns
  induction ns with
  | nil =>
    intro S S2 hrec hinv h
    simp only [dfsNeighborsAux, Option.some.injEq, Prod.mk.injEq, true_and] at h
    subst h
    exact ⟨FalseOut.refl adj S hinv, by simp⟩
  | cons n rest ih =>
    intro S S2 hrec hinv h
    simp only [dfsNeighborsAux] at h
    by_cases hv : n ∈ S.visited
    · rw [if_pos hv] at h
      by_cases hr : n ∈ S.recStack
      · rw [if_pos hr] at h
        simp at h
      · rw [if_neg hr] at h
        obtain ⟨hout, hall⟩ := ih S S2 hrec hinv h
        refine ⟨hout, fun m hm => ?_⟩
        rcases List.mem_cons.1 hm with hm | hm
        · exact hout.blackMono m (hm ▸ ⟨hv, hr⟩)
        · exact hall m hm
    · rw [if_neg hv] at h
      cases hnext : next n S with
      | none => rw [hnext] at h; simp at h
      | some p =>
        rw [hnext] at h
        obtain ⟨b, T⟩ := p
        cases b with
        | true => simp at h
        | false =>
          simp only at h
          obtain ⟨hout1, hnT, hblackT⟩ := Hfalse n S T hv hrec hinv hnext
          have hrecT : ∀ x ∈ T.recStack, x ∈ T.visited := by
            intro x hx
            rw [hout1.recEq] at hx
            exact hout1.visMono x (hrec x hx)
          obtain ⟨hout2, hall⟩ := ih T S2 hrecT hout1.inv h
          refine ⟨hout1.trans hout2, fun m hm => ?_⟩
          rcases List.mem_cons.1 hm with hm | hm
          · exact hout2.blackMono m (hm ▸ hblackT)
          · exact hall m hm

theorem blackV_push {S : DfsState} {u : String} (hu : u ∉ S.visited) (p c : List String) :
    ∀ x, blackV ⟨u :: S.visited, u :: S.recStack, p, c⟩ x ↔ blackV S x := by
  intro x
  unfold blackV
  simp only [List.mem_cons, not_or]
  constructor
  · rintro ⟨hx | hx, hne, hr⟩
    · exact absurd hx hne
    · exact ⟨hx, hr⟩
  · rintro ⟨hx, hr⟩
    exact ⟨Or.inr hx, fun he => hu (he ▸ hx), hr⟩


theorem dfsF_succ (adj : String → Option (List String)) (fuel : Nat) (u : String)
    (S : DfsState) :
    dfsF adj (fuel + 1) u S =
      match dfsNeighborsAux (fun v T => dfsF adj fuel v T) ((adj u).getD [])
          ⟨u :: S.visited, u :: S.recStack, S.path ++ [u], S.cycleNodes⟩ with
      | none => none
      | some (true, S2) => some (true, S2)
      | some (false, S2) =>
        some (false, ⟨S2.visited, S2.recStack.erase u, S2.path.dropLast, S2.cycleNodes⟩) := rfl

theorem dfsF_false (adj : String → Option (List String)) :
    ∀ fuel u S S2, u ∉ S.visited → (∀ x ∈ S.recStack, x ∈ S.visited) →
      DetectInv adj S → dfsF adj fuel u S = some (false, S2) →
      FalseOut adj S S2 ∧ u ∈ S2.visited ∧ blackV S2 u := by
  intro fuel
  induction fuel with
  | zero => intro u S S2 _ _ _ h; simp [dfsF] at h
  | succ fuel ih =>
    intro u S S2 hu hrec hinv h
    rw [dfsF_succ] at h
    split at h
    · exact absurd h (by simp)
    · exact absurd h (by simp)
    · rename_i T heq
      simp only [Option.some.injEq, Prod.mk.injEq, true_and] at h
      have hrec1 : ∀ x ∈ (⟨u :: S.visited, u :: S.recStack, S.path ++ [u], S.cycleNodes⟩ :
          DfsState).recStack, x ∈ (⟨u :: S.visited, u :: S.recStack, S.path ++ [u],
          S.cycleNodes⟩ : DfsState).visited := by
        intro x hx
        rcases List.mem_cons.1 hx with hx | hx
        · exact hx ▸ List.mem_cons_self u S.visited
        · exact List.mem_cons_of_mem u (hrec x hx)
      have hinv1 : DetectInv adj ⟨u :: S.visited, u :: S.recStack, S.path ++ [u],
          S.cycleNodes⟩ :=
        hinv.congrBlack (fun x => (blackV_push hu (S.path ++ [u]) S.cycleNodes x).symm)
      obtain ⟨hout, hnbrs⟩ :=
        aux_false adj (fun v T => dfsF adj fuel v T)
          (fun v T T2 h1 h2 h3 h4 => ih v T T2 h1 h2 h3 h4)
          ((adj u).getD []) _ T hrec1 hinv1 heq
      have hTrec : T.recStack = u :: S.recStack := hout.recEq
      have hTpath : T.path = S.path ++ [u] := hout.pathEq
      have huT : u ∈ T.visited := hout.visMono u (List.mem_cons_self u S.visited)
      have hunotrec : u ∉ S.recStack := fun hx => hu (hrec u hx)
      have huTrec : u ∈ T.recStack := hTrec ▸ List.mem_cons_self u S.recStack
      have hSfrec : T.recStack.erase u = S.recStack := by
        rw [hTrec, List.erase_cons_head]
      have hblackSf : ∀ x, blackV S2 x ↔ (x ∈ T.visited ∧ x ∉ S.recStack) := by
        intro x
        rw [← h]
        unfold blackV
        rw [hSfrec]
      have hblackTSf : ∀ x, blackV T x → blackV S2 x := by
        intro x hx
        refine (hblackSf x).2 ⟨hx.1, fun hmem => hx.2 ?_⟩
        rw [hTrec]
        exact List.mem_cons_of_mem u hmem
      have hblackSfu : blackV S2 u := (hblackSf u).2 ⟨huT, hunotrec⟩
      refine ⟨⟨?_, ?_, ?_, ?_, ⟨?_, ?_⟩, ?_⟩, ?_, hblackSfu⟩
      · rw [← h]; exact hSfrec
      · rw [← h]
        show T.path.dropLast = S.path
        rw [hTpath, List.dropLast_concat]
      · intro x hx
        rw [← h]
        exact hout.visMono x (List.mem_cons_of_mem u hx)
      · intro x hx
        exact hblackTSf x (hout.blackMono x ((blackV_push hu _ _ x).2 hx))
      · -- closure of the black set after u turns black
        intro x hx y hy
        rcases (hblackSf x).1 hx with ⟨hxT, hxrec⟩
        by_cases hxu : x = u
        · subst hxu
          exact hblackTSf y (hnbrs y hy)
        · have hxb : blackV T x := ⟨hxT, by
            rw [hTrec]
            intro hmem
            rcases List.mem_cons.1 hmem with hmem | hmem
            · exact hxu hmem
            · exact hxrec hmem⟩
          exact hblackTSf y (hout.inv.closed x hxb y hy)
      · -- acyclicity of the black set after u turns black
        intro x hx htg
        rcases (hblackSf x).1 hx with ⟨hxT, hxrec⟩
        by_cases hxu : x = u
        · subst hxu
          obtain ⟨y, hstep, hrtg⟩ := Relation.TransGen.head'_iff.1 htg
          have hyb : blackV T y := hnbrs y hstep
          have hub : blackV T x := black_reflTransGen hout.inv hyb hrtg
          exact hub.2 huTrec
        · have hxb : blackV T x := ⟨hxT, by
            rw [hTrec]
            intro hmem
            rcases List.mem_cons.1 hmem with hmem | hmem
            · exact hxu hmem
            · exact hxrec hmem⟩
          exact hout.inv.acyc x hxb htg
      · rw [← h]
        exact hout.cycEq
      · rw [← h]
        exact huT

theorem aux_visMono (next : String → DfsState → Option (Bool × DfsState))
    (Hnext : ∀ u T b T2, next u T = some (b, T2) → ∀ x ∈ T.visited, x ∈ T2.visited) :
    ∀ ns S b S2, dfsNeighborsAux next ns S = some (b, S2) →
      ∀ x ∈ S.visited, x ∈ S2.visited := by
  intro ns
  induction ns with
  | nil =>
    intro S b S2 h
    simp only [dfsNeighborsAux, Option.some.injEq, Prod.mk.injEq] at h
    exact h.2 ▸ fun x hx => hx
  | cons n rest ih =>
    intro S b S2 h
    simp only [dfsNeighborsAux] at h
    by_cases hv : n ∈ S.visited
    · rw [if_pos hv] at h
      by_cases hr : n ∈ S.recStack
      · rw [if_pos hr] at h
        simp only [Option.some.injEq, Prod.mk.injEq] at h
        rw [← h.2]
        exact fun x hx => hx
      · rw [if_neg hr] at h
        exact ih S b S2 h
    · rw [if_neg hv] at h
      cases hnext : next n S with
      | none => rw [hnext] at h; simp at h
      | some p =>
        rw [hnext] at h
        obtain ⟨b', T⟩ := p
        cases b' with
        | true =>
          simp only [Option.some.injEq, Prod.mk.injEq] at h
          rw [← h.2]
          exact Hnext n S true T hnext
        | false =>
          exact fun x hx => ih T b S2 h x (Hnext n S false T hnext x hx)

theorem dfsF_visMono (adj : String → Option (List String)) :
    ∀ fuel u S b S2, dfsF adj fuel u S = some (b, S2) →
      ∀ x ∈ S.visited, x ∈ S2.visited := by
  intro fuel
  induction fuel with
  | zero => intro u S b S2 h; simp [dfsF] at h
  | succ fuel ih =>
    intro u S b S2 h
    rw [dfsF_succ] at h
    split at h
    · simp at h
    · rename_i T heq
      simp only [Option.some.injEq, Prod.mk.injEq] at h
      rw [← h.2]
      intro x hx
      exact aux_visMono (fun v T => dfsF adj fuel v T)
        (fun v T' b' T2 hc => ih v T' b' T2 hc) _ _ true T heq x
        (List.mem_cons_of_mem u hx)
    · rename_i T heq
      simp only [Option.some.injEq, Prod.mk.injEq] at h
      rw [← h.2]
      intro x hx
      exact aux_visMono (fun v T => dfsF adj fuel v T)
        (fun v T' b' T2 hc => ih v T' b' T2 hc) _ _ false T heq x
        (List.mem_cons_of_mem u hx)

/-- Number of ids of the fuel universe not yet visited; the DFS recursion
strictly decreases it. -/
def remMeasure (univ : List String) (S : DfsState) : Nat :=
  (univ.toFinset \ S.visited.toFinset).card

theorem remMeasure_mono (univ : List String) {S T : DfsState}
    (h : ∀ x ∈ S.visited, x ∈ T.visited) : remMeasure univ T ≤ remMeasure univ S := by
  apply Finset.card_le_card
  apply Finset.sdiff_subset_sdiff (Finset.Subset.refl _)
  intro a ha
  rw [List.mem_toFinset] at ha ⊢
  exact h a ha

theorem remMeasure_push (univ : List String) {S : DfsState} {u : String}
    (hu1 : u ∈ univ) (hu : u ∉ S.visited) (r p c : List String) :
    remMeasure univ ⟨u :: S.visited, r, p, c⟩ < remMeasure univ S := by
  unfold remMeasure
  have h1 : (u :: S.visited).toFinset = insert u S.visited.toFinset := List.toFinset_cons
  rw [h1, Finset.sdiff_insert]
  apply Finset.card_erase_lt_of_mem
  rw [Finset.mem_sdiff, List.mem_toFinset, List.mem_toFinset]
  exact ⟨hu1, hu⟩

theorem aux_some (adj : String → Option (List String)) (univ : List String) (fuel : Nat)
    (Hs : ∀ u T, u ∈ univ → u ∉ T.visited → remMeasure univ T < fuel →
      (dfsF adj fuel u T).isSome) :
    ∀ ns S, (∀ n ∈ ns, n ∈ univ) → remMeasure univ S < fuel →
      (dfsNeighborsAux (fun v T => dfsF adj fuel v T) ns S).isSome := by
  intro ns
  induction ns with
  | nil => intro S _ _; simp [dfsNeighborsAux]
  | cons n rest ih =>
    intro S hns hm
    simp only [dfsNeighborsAux]
    by_cases hv : n ∈ S.visited
    · rw [if_pos hv]
      by_cases hr : n ∈ S.recStack
      · rw [if_pos hr]; simp
      · rw [if_neg hr]
        exact ih S (fun m hm' => hns m (List.mem_cons_of_mem n hm')) hm
    · rw [if_neg hv]
      have hsome := Hs n S (hns n (List.mem_cons_self n rest)) hv hm
      cases hd : dfsF adj fuel n S with
      | none => rw [hd] at hsome; simp at hsome
      | some p =>
        obtain ⟨b, T⟩ := p
        cases b with
        | true => simp
        | false =>
          have hmT : remMeasure univ T ≤ remMeasure univ S :=
            remMeasure_mono univ (dfsF_visMono adj fuel n S false T hd)
          exact ih T (fun m hm' => hns m (List.mem_cons_of_mem n hm'))
            (lt_of_le_of_lt hmT hm)

theorem dfsF_some (adj : String → Option (List String)) (univ : List String)
    (hadj : ∀ v w, w ∈ (adj v).getD [] → w ∈ univ) :
    ∀ fuel u S, u ∈ univ → u ∉ S.visited → remMeasure univ S < fuel →
      (dfsF adj fuel u S).isSome := by
  intro fuel
  induction fuel with
  | zero => intro u S _ _ hm; exact absurd hm (Nat.not_lt_zero _)
  | succ fuel ih =>
    intro u S hu hv hm
    rw [dfsF_succ]
    have hm1 : remMeasure univ ⟨u :: S.visited, u :: S.recStack, S.path ++ [u],
        S.cycleNodes⟩ < fuel := by
      have h1 := remMeasure_push univ hu hv (u :: S.recStack) (S.path ++ [u]) S.cycleNodes
      omega
    have hsome := aux_some adj univ fuel (fun v T h1 h2 h3 => ih v T h1 h2 h3)
      ((adj u).getD []) _ (fun n hn => hadj u n hn) hm1
    cases haux : dfsNeighborsAux (fun v T => dfsF adj fuel v T) ((adj u).getD [])
        ⟨u :: S.visited, u :: S.recStack, S.path ++ [u], S.cycleNodes⟩ with
    | none => rw [haux] at hsome; simp at hsome
    | some p =>
      obtain ⟨b, T⟩ := p
      cases b <;> simp

theorem loop_some (adj : String → Option (List String)) (univ : List String) (fuel : Nat)
    (hadj : ∀ v w, w ∈ (adj v).getD [] → w ∈ univ) :
    ∀ ids S, (∀ i ∈ ids, i ∈ univ) → remMeasure univ S < fuel →
      (detectLoop adj fuel ids S).isSome := by
  intro ids
  induction ids with
  | nil => intro S _ _; simp [detectLoop]
  | cons i rest ih =>
    intro S hids hm
    simp only [detectLoop]
    by_cases hv : i ∈ S.visited
    · rw [if_pos hv]
      exact ih S (fun m hm' => hids m (List.mem_cons_of_mem i hm')) hm
    · rw [if_neg hv]
      have hmp : remMeasure univ { S with path := ([] : List String) } < fuel := hm
      have hsome := dfsF_some adj univ hadj fuel i { S with path := ([] : List String) }
        (hids i (List.mem_cons_self i rest)) hv hmp
      cases hd : dfsF adj fuel i { S with path := ([] : List String) } with
      | none => rw [hd] at hsome; simp at hsome
      | some p =>
        obtain ⟨b, T⟩ := p
        cases b with
        | true => simp
        | false =>
          have hmT : remMeasure univ T ≤ remMeasure univ S :=
            remMeasure_mono univ
              (dfsF_visMono adj fuel i { S with path := ([] : List String) } false T hd)
          exact ih T (fun m hm' => hids m (List.mem_cons_of_mem i hm'))
            (lt_of_le_of_lt hmT hm)

theorem adjOf_targets (nodes : List Node) (edges : List Edge) (v w : String)
    (h : w ∈ (adjOf nodes edges v).getD []) : w ∈ detectUniv nodes edges := by
  unfold adjOf at h
  by_cases hc : nodes.any (fun n => n.id == v) = true
  · rw [hc] at h
    simp only [if_true, Option.getD_some, List.mem_map, List.mem_filter] at h
    obtain ⟨e, ⟨he, _⟩, ht⟩ := h
    unfold detectUniv
    exact List.mem_append_right _ (List.mem_map.2 ⟨e, he, ht⟩)
  · have hc' : nodes.any (fun n => n.id == v) = false := by simpa using hc
    rw [hc'] at h
    simp at h

theorem detectLoop_isSome (nodes : List Node) (edges : List Edge) :
    (detectLoop (adjOf nodes edges) ((detectUniv nodes edges).length + 1)
      (nodes.map (fun n => n.id)) initState).isSome := by
  apply loop_some (adjOf nodes edges) (detectUniv nodes edges)
  · exact fun v w h => adjOf_targets nodes edges v w h
  · intro i hi
    exact List.mem_append_left _ hi
  · unfold remMeasure initState
    simp only [List.toFinset_nil, Finset.sdiff_empty]
    exact Nat.lt_succ_of_le (List.toFinset_card_le _)

theorem detectDeadlockO_eq_some (nodes : List Node) (edges : List Edge) :
    detectDeadlockO nodes edges = some (detectDeadlock nodes edges) := by
  have h := detectLoop_isSome nodes edges
  rw [Option.isSome_iff_exists] at h
  obtain ⟨⟨b, S⟩, hp⟩ := h
  unfold detectDeadlock detectDeadlockO
  rw [hp]
  rfl

theorem cycle_extract (adj : String → Option (List String)) (path : List String)
    (n u : String) (hN : path.Nodup) (hC : List.Chain' (AdjStep adj) path)
    (hmem : n ∈ path) (hlast : path.getLast? = some u) (hadj : AdjStep adj u n) :
    CycleSpec adj (path.drop (path.findIdx (fun x => x == n))) := by
  have hex : ∃ x ∈ path, (fun x => x == n) x := ⟨n, hmem, by simp⟩
  have hlt : path.findIdx (fun x => x == n) < path.length :=
    List.findIdx_lt_length_of_exists hex
  have hdropeq : path.drop (path.findIdx (fun x => x == n)) =
      path[path.findIdx (fun x => x == n)] ::
        path.drop (path.findIdx (fun x => x == n) + 1) :=
    List.drop_eq_getElem_cons hlt
  have hgetn : path[path.findIdx (fun x => x == n)] = n := by
    have h2 := @List.findIdx_getElem String (fun x => x == n) path hlt
    simpa using h2
  have hne : path.drop (path.findIdx (fun x => x == n)) ≠ [] := by
    rw [hdropeq]
    exact List.cons_ne_nil _ _
  refine ⟨hne, ?_, ?_, n, u, ?_, ?_, hadj⟩
  · exact hN.sublist (List.drop_sublist _ path)
  · exact hC.drop _
  · rw [hdropeq, hgetn]; rfl
  · have hsplit : path.getLast? =
        (path.drop (path.findIdx (fun x => x == n))).getLast?.or
          ((path.take (path.findIdx (fun x => x == n))).getLast?) := by
      conv_lhs => rw [← List.take_append_drop (path.findIdx (fun x => x == n)) path]
      rw [List.getLast?_append]
    have hdl : (path.drop (path.findIdx (fun x => x == n))).getLast? =
        some ((path.drop (path.findIdx (fun x => x == n))).getLast hne) :=
      List.getLast?_eq_getLast _ hne
    rw [hdl, Option.or_some] at hsplit
    rw [hlast] at hsplit
    rw [hdl]
    exact hsplit.symm

theorem aux_true (adj : String → Option (List String)) (fuel : Nat)
    (Htrue : ∀ u T T2, PathInv adj T → DetectInv adj T → u ∉ T.visited →
      (T.path = [] ∨ ∃ w, T.path.getLast? = some w ∧ AdjStep adj w u) →
      dfsF adj fuel u T = some (true, T2) → CycleSpec adj T2.cycleNodes) :
    ∀ ns S S2 u, PathInv adj S → DetectInv adj S → S.path.getLast? = some u →
      (∀ n ∈ ns, AdjStep adj u n) →
      dfsNeighborsAux (fun v T => dfsF adj fuel v T) ns S = some (true, S2) →
      CycleSpec adj S2.cycleNodes := by
  intro ns
  induction ns with
  | nil => intro S S2 u _ _ _ _ h; simp [dfsNeighborsAux] at h
  | cons n rest ih =>
    intro S S2 u hP hI hlast hns h
    simp only [dfsNeighborsAux] at h
    by_cases hv : n ∈ S.visited
    · rw [if_pos hv] at h
      by_cases hr : n ∈ S.recStack
      · rw [if_pos hr] at h
        simp only [Option.some.injEq, Prod.mk.injEq, true_and] at h
        rw [← h]
        exact cycle_extract adj S.path n u hP.nodup hP.chain ((hP.recPath n).1 hr) hlast
          (hns n (List.mem_cons_self n rest))
      · rw [if_neg hr] at h
        exact ih S S2 u hP hI hlast (fun m hm => hns m (List.mem_cons_of_mem n hm)) h
    · rw [if_neg hv] at h
      cases hd : dfsF adj fuel n S with
      | none => rw [hd] at h; simp at h
      | some p =>
        rw [hd] at h
        obtain ⟨b, T⟩ := p
        cases b with
        | true =>
          simp only [Option.some.injEq, Prod.mk.injEq, true_and] at h
          exact h ▸ Htrue n S T hP hI hv
            (Or.inr ⟨u, hlast, hns n (List.mem_cons_self n rest)⟩) hd
        | false =>
          obtain ⟨hout, hnT, hbT⟩ := dfsF_false adj fuel n S T hv hP.recSub hI hd
          have hP2 : PathInv adj T :=
            ⟨fun x hx => hout.visMono x (hP.recSub x (hout.recEq ▸ hx)),
             fun x => by rw [hout.recEq, hout.pathEq]; exact hP.recPath x,
             fun x hx => hout.visMono x (hP.pathSub x (hout.pathEq ▸ hx)),
             by rw [hout.pathEq]; exact hP.nodup,
             by rw [hout.pathEq]; exact hP.chain⟩
          exact ih T S2 u hP2 hout.inv (by rw [hout.pathEq]; exact hlast)
            (fun m hm => hns m (List.mem_cons_of_mem n hm)) h

theorem dfsF_true (adj : String → Option (List String)) :
    ∀ fuel u S S2, PathInv adj S → DetectInv adj S → u ∉ S.visited →
      (S.path = [] ∨ ∃ w, S.path.getLast? = some w ∧ AdjStep adj w u) →
      dfsF adj fuel u S = some (true, S2) → CycleSpec adj S2.cycleNodes := by
  intro fuel
  induction fuel with
  | zero => intro u S S2 _ _ _ _ h; simp [dfsF] at h
  | succ fuel ih =>
    intro u S S2 hP hI hu hlink h
    rw [dfsF_succ] at h
    split at h
    · simp at h
    · rename_i T heq
      simp only [Option.some.injEq, Prod.mk.injEq, true_and] at h
      subst h
      have hP1 : PathInv adj ⟨u :: S.visited, u :: S.recStack, S.path ++ [u],
          S.cycleNodes⟩ := by
        refine ⟨?_, ?_, ?_, ?_, ?_⟩
        · intro x hx
          rcases List.mem_cons.1 hx with hx | hx
          · exact hx ▸ List.mem_cons_self u S.visited
          · exact List.mem_cons_of_mem u (hP.recSub x hx)
        · intro x
          simp only [List.mem_cons, List.mem_append, List.mem_singleton]
          rw [← hP.recPath x]
          tauto
        · intro x hx
          simp only [List.mem_append, List.mem_singleton] at hx
          rcases hx with hx | hx
          · exact List.mem_cons_of_mem u (hP.pathSub x hx)
          · exact hx ▸ List.mem_cons_self u S.visited
        · rw [List.nodup_append]
          refine ⟨hP.nodup, List.nodup_singleton u, ?_⟩
          intro x hx hx'
          rw [List.mem_singleton] at hx'
          subst hx'
          exact hu (hP.pathSub x hx)
        · rw [List.chain'_append]
          refine ⟨hP.chain, List.chain'_singleton u, ?_⟩
          intro x hx y hy
          simp only [List.head?_cons, Option.mem_def, Option.some.injEq] at hy
          rcases hlink with hnil | ⟨w, hw, hadj⟩
          · rw [hnil] at hx; simp at hx
          · rw [hw] at hx
            simp only [Option.mem_def, Option.some.injEq] at hx
            exact hy ▸ hx ▸ hadj
      have hI1 : DetectInv adj ⟨u :: S.visited, u :: S.recStack, S.path ++ [u],
          S.cycleNodes⟩ :=
        hI.congrBlack (fun x => (blackV_push hu (S.path ++ [u]) S.cycleNodes x).symm)
      exact aux_true adj fuel (fun v T' T2 a1 a2 a3 a4 a5 => ih v T' T2 a1 a2 a3 a4 a5)
        ((adj u).getD []) _ T u hP1 hI1 (List.getLast?_concat _) (fun n hn => hn) heq
    · rename_i T heq
      simp at h

theorem initState_inv (adj : String → Option (List String)) : DetectInv adj initState :=
  ⟨fun x hx => absurd hx.1 (List.not_mem_nil x),
   fun x hx => absurd hx.1 (List.not_mem_nil x)⟩

theorem loop_false (adj : String → Option (List String)) (fuel : Nat) :
    ∀ ids S S2, S.recStack = [] → DetectInv adj S →
      detectLoop adj fuel ids S = some (false, S2) →
      DetectInv adj S2 ∧ S2.recStack = [] ∧ (∀ x ∈ S.visited, x ∈ S2.visited) ∧
        (∀ i ∈ ids, i ∈ S2.visited) ∧ S2.cycleNodes = S.cycleNodes := by
  intro ids
  induction ids with
  | nil =>
    intro S S2 hrec0 hinv h
    simp only [detectLoop, Option.some.injEq, Prod.mk.injEq, true_and] at h
    subst h
    exact ⟨hinv, hrec0, fun x hx => hx, by simp, rfl⟩
  | cons i rest ih =>
    intro S S2 hrec0 hinv h
    simp only [detectLoop] at h
    by_cases hv : i ∈ S.visited
    · rw [if_pos hv] at h
      obtain ⟨h1, h2, h3, h4, h5⟩ := ih S S2 hrec0 hinv h
      refine ⟨h1, h2, h3, fun m hm => ?_, h5⟩
      rcases List.mem_cons.1 hm with hm | hm
      · exact hm.symm ▸ h3 i hv
      · exact h4 m hm
    · rw [if_neg hv] at h
      cases hd : dfsF adj fuel i { S with path := ([] : List String) } with
      | none => rw [hd] at h; simp at h
      | some p =>
        rw [hd] at h
        obtain ⟨b, T⟩ := p
        cases b with
        | true => simp at h
        | false =>
          have hrecS : ∀ x ∈ ({ S with path := ([] : List String) } : DfsState).recStack,
              x ∈ ({ S with path := ([] : List String) } : DfsState).visited := by
            intro x hx
            rw [hrec0] at hx
            exact absurd hx (List.not_mem_nil x)
          have hinv1 : DetectInv adj { S with path := ([] : List String) } :=
            @DetectInv.congrBlack adj S { S with path := ([] : List String) }
              (fun x => Iff.rfl) hinv
          obtain ⟨hout, hiT, hbT⟩ :=
            dfsF_false adj fuel i { S with path := ([] : List String) } T hv hrecS hinv1 hd
          have hTrec : T.recStack = [] := by
            rw [hout.recEq]
            exact hrec0
          obtain ⟨h1, h2, h3, h4, h5⟩ := ih T S2 hTrec hout.inv h
          refine ⟨h1, h2, fun x hx => h3 x (hout.visMono x hx), fun m hm => ?_,
            h5.trans hout.cycEq⟩
          rcases List.mem_cons.1 hm with hm | hm
          · exact hm ▸ h3 i hiT
          · exact h4 m hm

theorem loop_true (adj : String → Option (List String)) (fuel : Nat) :
    ∀ ids S S2, S.recStack = [] → S.path = [] → DetectInv adj S →
      detectLoop adj fuel ids S = some (true, S2) → CycleSpec adj S2.cycleNodes := by
  intro ids
  induction ids with
  | nil => intro S S2 _ _ _ h; simp [detectLoop] at h
  | cons i rest ih =>
    intro S S2 hrec0 hpath0 hinv h
    simp only [detectLoop] at h
    by_cases hv : i ∈ S.visited
    · rw [if_pos hv] at h
      exact ih S S2 hrec0 hpath0 hinv h
    · rw [if_neg hv] at h
      cases hd : dfsF adj fuel i { S with path := ([] : List String) } with
      | none => rw [hd] at h; simp at h
      | some p =>
        rw [hd] at h
        obtain ⟨b, T⟩ := p
        cases b with
        | true =>
          simp only [Option.some.injEq, Prod.mk.injEq, true_and] at h
          have hP : PathInv adj { S with path := ([] : List String) } := by
            refine ⟨?_, ?_, ?_, ?_, ?_⟩
            · intro x hx
              rw [hrec0] at hx
              exact absurd hx (List.not_mem_nil x)
            · intro x
              show x ∈ S.recStack ↔ x ∈ ([] : List String)
              rw [hrec0]
            · intro x hx
              exact absurd hx (List.not_mem_nil x)
            · exact List.nodup_nil
            · exact List.chain'_nil
          have hinv1 : DetectInv adj { S with path := ([] : List String) } :=
            @DetectInv.congrBlack adj S { S with path := ([] : List String) }
              (fun x => Iff.rfl) hinv
          exact h ▸ dfsF_true adj fuel i { S with path := ([] : List String) } T hP hinv1 hv
            (Or.inl rfl) hd
        | false =>
          have hrecS : ∀ x ∈ ({ S with path := ([] : List String) } : DfsState).recStack,
              x ∈ ({ S with path := ([] : List String) } : DfsState).visited := by
            intro x hx
            rw [hrec0] at hx
            exact absurd hx (List.not_mem_nil x)
          have hinv1 : DetectInv adj { S with path := ([] : List String) } :=
            @DetectInv.congrBlack adj S { S with path := ([] : List String) }
              (fun x => Iff.rfl) hinv
          obtain ⟨hout, hiT, hbT⟩ :=
            dfsF_false adj fuel i { S with path := ([] : List String) } T hv hrecS hinv1 hd
          have hTrec : T.recStack = [] := by
            rw [hout.recEq]; exact hrec0
          have hTpath : T.path = [] := hout.pathEq
          exact ih T S2 hTrec hTpath hout.inv h

theorem detect_run (nodes : List Node) (edges : List Edge) :
    ∃ b S2,
      detectLoop (adjOf nodes edges) ((detectUniv nodes edges).length + 1)
        (nodes.map (fun n => n.id)) initState = some (b, S2) ∧
      detectDeadlock nodes edges =
        ⟨b, S2.cycleNodes, S2.cycleNodes.filter (typeIs nodes NodeType.PROCESS),
          S2.cycleNodes.filter (typeIs nodes NodeType.RESOURCE)⟩ := by
  have h := detectLoop_isSome nodes edges
  rw [Option.isSome_iff_exists] at h
  obtain ⟨⟨b, S⟩, hp⟩ := h
  refine ⟨b, S, hp, ?_⟩
  unfold detectDeadlock detectDeadlockO
  rw [hp]
  rfl

theorem detect_false_acyclic (nodes : List Node) (edges : List Edge)
    (h : (detectDeadlock nodes edges).hasDeadlock = false) :
    ∀ v, ¬ Relation.TransGen (AdjStep (adjOf nodes edges)) v v := by
  obtain ⟨b, S2, hloop, heq⟩ := detect_run nodes edges
  rw [heq] at h
  simp only at h
  subst h
  obtain ⟨hinv2, hrec2, _, hall, _⟩ :=
    loop_false (adjOf nodes edges) ((detectUniv nodes edges).length + 1)
      (nodes.map (fun n => n.id)) initState S2 rfl (initState_inv _) hloop
  intro v htg
  obtain ⟨w, hstep, _⟩ := Relation.TransGen.head'_iff.1 htg
  have hvnode : ∃ n ∈ nodes, n.id = v := ((adjStep_iff nodes edges v w).1 hstep).1
  have hvmem : v ∈ nodes.map (fun n => n.id) := by
    obtain ⟨n, hn, hid⟩ := hvnode
    exact List.mem_map.2 ⟨n, hn, hid⟩
  have hblack : blackV S2 v := ⟨hall v hvmem, by
    rw [hrec2]
    exact List.not_mem_nil v⟩
  exact hinv2.acyc v hblack htg

theorem detect_true_cycleSpec (nodes : List Node) (edges : List Edge)
    (h : (detectDeadlock nodes edges).hasDeadlock = true) :
    CycleSpec (adjOf nodes edges) (detectDeadlock nodes edges).cycle := by
  obtain ⟨b, S2, hloop, heq⟩ := detect_run nodes edges
  rw [heq] at h ⊢
  simp only at h ⊢
  subst h
  exact loop_true (adjOf nodes edges) ((detectUniv nodes edges).length + 1)
    (nodes.map (fun n => n.id)) initState S2 rfl rfl (initState_inv _) hloop

theorem detect_false_cycle_nil (nodes : List Node) (edges : List Edge)
    (h : (detectDeadlock nodes edges).hasDeadlock = false) :
    (detectDeadlock nodes edges).cycle = [] := by
  obtain ⟨b, S2, hloop, heq⟩ := detect_run nodes edges
  rw [heq] at h ⊢
  simp only at h ⊢
  subst h
  obtain ⟨_, _, _, _, hcyc⟩ :=
    loop_false (adjOf nodes edges) ((detectUniv nodes edges).length + 1)
      (nodes.map (fun n => n.id)) initState S2 rfl (initState_inv _) hloop
  exact hcyc

theorem transGen_of_closedChain {α : Type} (r : α → α → Prop) (c : List α) (hne : c ≠ [])
    (hch : List.Chain' r c)
    (hcl : ∃ a b, c.head? = some a ∧ c.getLast? = some b ∧ r b a) :
    ∃ v, Relation.TransGen r v v := by
  obtain ⟨a, b, hha, hhb, hr⟩ := hcl
  cases c with
  | nil => exact absurd rfl hne
  | cons x t =>
    simp only [List.head?_cons, Option.some.injEq] at hha
    subst hha
    have hch2 : List.Chain r x t := hch
    have hlast : (x :: t).getLast (List.cons_ne_nil x t) = b := by
      rw [List.getLast?_eq_getLast (x :: t) (List.cons_ne_nil x t)] at hhb
      exact Option.some.inj hhb
    have hrt : Relation.ReflTransGen r x b :=
      List.relationReflTransGen_of_exists_chain t hch2 hlast
    exact ⟨x, Relation.TransGen.tail' hrt hr⟩

theorem transGen_to_closedChain {α : Type} (r : α → α → Prop) (v : α)
    (h : Relation.TransGen r v v) :
    ∃ c : List α, c ≠ [] ∧ List.Chain' r c ∧
      ∃ a b, c.head? = some a ∧ c.getLast? = some b ∧ r b a := by
  cases h with
  | single h1 =>
    exact ⟨[v], by simp, List.chain'_singleton v, v, v, rfl, rfl, h1⟩
  | tail h1 h2 =>
    rename_i u
    obtain ⟨l, hch, hlast⟩ := List.exists_chain_of_relationReflTransGen h1.to_reflTransGen
    refine ⟨v :: l, List.cons_ne_nil v l, hch, v, u, rfl, ?_, h2⟩
    rw [List.getLast?_eq_getLast (v :: l) (List.cons_ne_nil v l)]
    exact congrArg some hlast

theorem edges_key_eq {edges1 edges2 : List Edge}
    (h : edges1.map (fun e => (e.id, e.source, e.target)) =
      edges2.map (fun e => (e.id, e.source, e.target))) : edges1 = edges2 := by
  have hinj : Function.Injective (fun e : Edge => (e.id, e.source, e.target)) := by
    intro a b hab
    cases a
    cases b
    simpa using hab
  exact List.map_injective_iff.2 hinj h

theorem nodes_key_ids : ∀ (l1 l2 : List Node),
    l1.map (fun n => (n.id, n.type)) = l2.map (fun n => (n.id, n.type)) →
    l1.map (fun n => n.id) = l2.map (fun n => n.id) := by
  intro l1
  induction l1 with
  | nil =>
    intro l2 h
    cases l2 with
    | nil => rfl
    | cons b t2 => simp at h
  | cons a t ih =>
    intro l2 h
    cases l2 with
    | nil => simp at h
    | cons b t2 =>
      simp only [List.map_cons, List.cons.injEq, Prod.mk.injEq] at h
      obtain ⟨⟨hid, _⟩, ht⟩ := h
      simp only [List.map_cons, List.cons.injEq]
      exact ⟨hid, ih t2 ht⟩

theorem nodes_key_any (v : String) : ∀ (l1 l2 : List Node),
    l1.map (fun n => (n.id, n.type)) = l2.map (fun n => (n.id, n.type)) →
    l1.any (fun n => n.id == v) = l2.any (fun n => n.id == v) := by
  intro l1
  induction l1 with
  | nil =>
    intro l2 h
    cases l2 with
    | nil => rfl
    | cons b t2 => simp at h
  | cons a t ih =>
    intro l2 h
    cases l2 with
    | nil => simp at h
    | cons b t2 =>
      simp only [List.map_cons, List.cons.injEq, Prod.mk.injEq] at h
      obtain ⟨⟨hid, _⟩, ht⟩ := h
      simp only [List.any_cons, hid, ih t2 ht]

theorem nodes_key_typeIs (t : NodeType) (v : String) : ∀ (l1 l2 : List Node),
    l1.map (fun n => (n.id, n.type)) = l2.map (fun n => (n.id, n.type)) →
    typeIs l1 t v = typeIs l2 t v := by
  intro l1
  induction l1 with
  | nil =>
    intro l2 h
    cases l2 with
    | nil => rfl
    | cons b t2 => simp at h
  | cons a t1 ih =>
    intro l2 h
    cases l2 with
    | nil => simp at h
    | cons b t2 =>
      simp only [List.map_cons, List.cons.injEq, Prod.mk.injEq] at h
      obtain ⟨⟨hid, hty⟩, ht⟩ := h
      by_cases hv : (a.id == v) = true
      · have hv2 : (b.id == v) = true := by rw [← hid]; exact hv
        unfold typeIs
        rw [List.find?_cons, List.find?_cons, hv, hv2]
        simp [hty]
      · have hv : (a.id == v) = false := by simpa using hv
        have hv2 : (b.id == v) = false := by rw [← hid]; exact hv
        unfold typeIs
        rw [List.find?_cons, List.find?_cons, hv, hv2]
        exact ih t2 ht

/-- C1: for every graph with referential integrity, `detectDeadlock`
reports `hasDeadlock = true` exactly when the directed graph formed by the
vertices and edges contains a directed cycle; the DFS is started from every
undiscovered vertex, so cycles in disjoint subgraphs are found as well. -/
theorem detectDeadlock_iff_hasCycle (nodes : List Node) (edges : List Edge)
    (hri : RefIntegrity nodes edges) :
    (detectDeadlock nodes edges).hasDeadlock = true ↔ HasCycle edges := by
  constructor
  · intro h
    obtain ⟨hne, hnd, hch, a, b, hha, hhb, hstep⟩ := detect_true_cycleSpec nodes edges h
    exact ⟨(detectDeadlock nodes edges).cycle, hne,
      hch.imp (fun x y hxy => adjStep_to_edgeStep nodes edges x y hxy),
      a, b, hha, hhb, adjStep_to_edgeStep nodes edges b a hstep⟩
  · intro hcy
    by_contra hfalse
    simp only [Bool.not_eq_true] at hfalse
    obtain ⟨c, hcne, hcch, a, b, hha, hhb, hr⟩ := hcy
    have hch2 : List.Chain' (AdjStep (adjOf nodes edges)) c :=
      hcch.imp (fun x y hxy => edgeStep_to_adjStep nodes edges hri x y hxy)
    obtain ⟨v, hv⟩ := transGen_of_closedChain (AdjStep (adjOf nodes edges)) c hcne hch2
      ⟨a, b, hha, hhb, edgeStep_to_adjStep nodes edges hri b a hr⟩
    exact detect_false_acyclic nodes edges hfalse v hv

/-- C1 witness: the claim applied to the concrete minimal-deadlock graph,
whose referential integrity is checked by evaluation. -/
theorem detectDeadlock_iff_hasCycle_witness :
    RefIntegrity createInitialNodes deadlockEdges ∧
      ((detectDeadlock createInitialNodes deadlockEdges).hasDeadlock = true ↔
        HasCycle deadlockEdges) :=
  ⟨by decide, detectDeadlock_iff_hasCycle createInitialNodes deadlockEdges (by decide)⟩

/-- C2: under referential integrity, a positive verdict comes with a
nonempty, duplicate-free witness cycle whose consecutive elements are
joined by edges and whose last element has an edge back to the first; a
negative verdict comes with an empty cycle; and the two involved lists are
exactly the kind-filtered projections of the cycle, in cycle order. -/
theorem detectDeadlock_cycle_wellFormed (nodes : List Node) (edges : List Edge)
    (_hri : RefIntegrity nodes edges) :
    ((detectDeadlock nodes edges).hasDeadlock = true →
      (detectDeadlock nodes edges).cycle ≠ [] ∧
      (detectDeadlock nodes edges).cycle.Nodup ∧
      List.Chain' (EdgeStep edges) (detectDeadlock nodes edges).cycle ∧
      ∃ a b, (detectDeadlock nodes edges).cycle.head? = some a ∧
        (detectDeadlock nodes edges).cycle.getLast? = some b ∧ EdgeStep edges b a) ∧
    ((detectDeadlock nodes edges).hasDeadlock = false →
      (detectDeadlock nodes edges).cycle = []) ∧
    (detectDeadlock nodes edges).involvedProcesses =
      (detectDeadlock nodes edges).cycle.filter (typeIs nodes NodeType.PROCESS) ∧
    (detectDeadlock nodes edges).involvedResources =
      (detectDeadlock nodes edges).cycle.filter (typeIs nodes NodeType.RESOURCE) := by
  obtain ⟨b0, S2, hloop, heq⟩ := detect_run nodes edges
  refine ⟨?_, detect_false_cycle_nil nodes edges, ?_, ?_⟩
  · intro h
    obtain ⟨hne, hnd, hch, a, b, hha, hhb, hstep⟩ := detect_true_cycleSpec nodes edges h
    exact ⟨hne, hnd, hch.imp (fun x y hxy => adjStep_to_edgeStep nodes edges x y hxy),
      a, b, hha, hhb, adjStep_to_edgeStep nodes edges b a hstep⟩
  · rw [heq]
  · rw [heq]

/-- C2 witness: the cycle well-formedness claim applied to the concrete
minimal-deadlock graph. -/
theorem detectDeadlock_cycle_wellFormed_witness :
    RefIntegrity createInitialNodes deadlockEdges ∧
      (((detectDeadlock createInitialNodes deadlockEdges).hasDeadlock = true →
        (detectDeadlock createInitialNodes deadlockEdges).cycle ≠ [] ∧
        (detectDeadlock createInitialNodes deadlockEdges).cycle.Nodup ∧
        List.Chain' (EdgeStep deadlockEdges)
          (detectDeadlock createInitialNodes deadlockEdges).cycle ∧
        ∃ a b,
          (detectDeadlock createInitialNodes deadlockEdges).cycle.head? = some a ∧
          (detectDeadlock createInitialNodes deadlockEdges).cycle.getLast? = some b ∧
          EdgeStep deadlockEdges b a) ∧
      ((detectDeadlock createInitialNodes deadlockEdges).hasDeadlock = false →
        (detectDeadlock createInitialNodes deadlockEdges).cycle = []) ∧
      (detectDeadlock createInitialNodes deadlockEdges).involvedProcesses =
        (detectDeadlock createInitialNodes deadlockEdges).cycle.filter
          (typeIs createInitialNodes NodeType.PROCESS) ∧
      (detectDeadlock createInitialNodes deadlockEdges).involvedResources =
        (detectDeadlock createInitialNodes deadlockEdges).cycle.filter
          (typeIs createInitialNodes NodeType.RESOURCE)) :=
  ⟨by decide,
    detectDeadlock_cycle_wellFormed createInitialNodes deadlockEdges (by decide)⟩

/-- C3: the initial wait-chain graph (edges R1→P1, P1→R2, R2→P2) is
deadlock-free; adding P2→R1 produces a deadlock whose cycle is exactly
P1, R2, P2, R1 in cyclic order, with processes {P1, P2} and resources
{R1, R2} (returned in cycle order R2, R1). -/
theorem initialGraphs_detection :
    (detectDeadlock createInitialNodes createInitialEdges).hasDeadlock = false ∧
    detectDeadlock createInitialNodes deadlockEdges =
      ⟨true, ["P1", "R2", "P2", "R1"], ["P1", "P2"], ["R2", "R1"]⟩ := by
  decide

/-- C4: an add-edge request with a missing endpoint or two same-kind
endpoints is rejected as `invalidEdge` and leaves the graph (vertices and
edges) unchanged. -/
theorem handleAddEdge_invalidEdge (g : Graph) (sourceId targetId : String) (now : Nat)
    (h : (¬ ∃ n ∈ g.nodes, n.id = sourceId) ∨ (¬ ∃ n ∈ g.nodes, n.id = targetId) ∨
      (∃ sn tn, g.nodes.find? (fun n => n.id == sourceId) = some sn ∧
        g.nodes.find? (fun n => n.id == targetId) = some tn ∧ sn.type = tn.type)) :
    handleAddEdge g sourceId targetId now = (g, AddEdgeOutcome.invalidEdge) := by
  rcases h with h | h | ⟨sn, tn, hs, ht, hty⟩
  · have hfs : g.nodes.find? (fun n => n.id == sourceId) = none := by
      rw [List.find?_eq_none]
      intro n hn hps
      exact h ⟨n, hn, by simpa using hps⟩
    cases hft : g.nodes.find? (fun n => n.id == targetId) with
    | none => simp [handleAddEdge, hfs, hft]
    | some tn => simp [handleAddEdge, hfs, hft]
  · have hft : g.nodes.find? (fun n => n.id == targetId) = none := by
      rw [List.find?_eq_none]
      intro n hn hps
      exact h ⟨n, hn, by simpa using hps⟩
    cases hfs : g.nodes.find? (fun n => n.id == sourceId) with
    | none => simp [handleAddEdge, hfs, hft]
    | some sn => simp [handleAddEdge, hfs, hft]
  · have hbeq : (sn.type == tn.type) = true := by simp [hty]
    simp [handleAddEdge, hs, ht, hbeq]

/-- C4 witness: connecting the two PROCESS vertices of `sameKindDupGraph`
is rejected with the graph unchanged. -/
theorem handleAddEdge_invalidEdge_witness :
    handleAddEdge sameKindDupGraph "P1" "P2" 7 =
      (sameKindDupGraph, AddEdgeOutcome.invalidEdge) :=
  handleAddEdge_invalidEdge sameKindDupGraph "P1" "P2" 7
    (Or.inr (Or.inr ⟨{ id := "P1", type := NodeType.PROCESS },
      { id := "P2", type := NodeType.PROCESS }, by decide, by decide, rfl⟩))

/-- C5: the detector is a pure function of the snapshot — two successive
invocations on the same unmutated graph return identical results (the
embedding threads no state through `detectDeadlock`, mirroring the fact
that the source function only reads its arguments). -/
theorem detectDeadlock_idempotent (nodes : List Node) (edges : List Edge) :
    detectTwice nodes edges = (detectDeadlock nodes edges, detectDeadlock nodes edges) ∧
    (detectTwice nodes edges).1 = (detectTwice nodes edges).2 :=
  ⟨rfl, rfl⟩

/-- C6 counterexample: on a graph with a dangling edge, removing an id that
names no vertex is not a no-op — the edge referencing it is still removed,
so the claim's unconditional no-op clause fails. -/
theorem handleRemoveNode_noop_cex :
    (∀ n ∈ danglingGraph.nodes, n.id ≠ "X") ∧
      handleRemoveNode danglingGraph "X" ≠ danglingGraph := by
  decide

/-- C6 amended: `removeVertex` removes exactly the vertex with the given id
and exactly the edges touching that id, leaving everything else unchanged;
the removal of an id that is absent from the vertices is a no-op provided
no edge references the id (which referential integrity guarantees). -/
theorem handleRemoveNode_spec (g : Graph) (nodeId : String) :
    (∀ n, n ∈ (handleRemoveNode g nodeId).nodes ↔ n ∈ g.nodes ∧ n.id ≠ nodeId) ∧
    (∀ e, e ∈ (handleRemoveNode g nodeId).edges ↔
      e ∈ g.edges ∧ e.source ≠ nodeId ∧ e.target ≠ nodeId) ∧
    ((∀ n ∈ g.nodes, n.id ≠ nodeId) →
      (∀ e ∈ g.edges, e.source ≠ nodeId ∧ e.target ≠ nodeId) →
      handleRemoveNode g nodeId = g) := by
  refine ⟨?_, ?_, ?_⟩
  · intro n
    simp [handleRemoveNode, List.mem_filter, bne_iff_ne]
  · intro e
    simp [handleRemoveNode, List.mem_filter, bne_iff_ne]
  · intro hn he
    cases g with
    | mk ns es =>
      unfold handleRemoveNode
      simp only [Graph.mk.injEq]
      constructor
      · rw [List.filter_eq_self]
        intro a ha
        simpa [bne_iff_ne] using hn a ha
      · rw [List.filter_eq_self]
        intro a ha
        obtain ⟨h1, h2⟩ := he a ha
        simp [bne_iff_ne, h1, h2]

/-- C6 witness: removing the absent id `Z` from the initial graph, which
has referential integrity, changes nothing. -/
theorem handleRemoveNode_spec_witness :
    handleRemoveNode initialGraph "Z" = initialGraph :=
  (handleRemoveNode_spec initialGraph "Z").2.2 (by decide) (by decide)

/-- C7 counterexample: a graph that already contains an edge with the exact
pair (P1, P2) but whose endpoints are both PROCESS: the repeated request is
rejected as `invalidEdge` (the same-kind alert path), not silently ignored,
because validation runs before the duplicate check. -/
theorem handleAddEdge_duplicate_cex :
    (∃ e ∈ sameKindDupGraph.edges, e.source = "P1" ∧ e.target = "P2") ∧
    (handleAddEdge sameKindDupGraph "P1" "P2" 0).2 = AddEdgeOutcome.invalidEdge ∧
    (handleAddEdge sameKindDupGraph "P1" "P2" 0).2 ≠ AddEdgeOutcome.duplicateIgnored := by
  decide

/-- C7 amended: for a request whose endpoints both resolve and have
different kinds, an already-present (source, target) pair makes the call a
silent no-op: outcome `duplicateIgnored` and the graph unchanged. -/
theorem handleAddEdge_duplicate_ignored (g : Graph) (s t : String) (now : Nat)
    (sn tn : Node) (hs : g.nodes.find? (fun n => n.id == s) = some sn)
    (ht : g.nodes.find? (fun n => n.id == t) = some tn) (hty : sn.type ≠ tn.type)
    (hdup : ∃ e ∈ g.edges, e.source = s ∧ e.target = t) :
    handleAddEdge g s t now = (g, AddEdgeOutcome.duplicateIgnored) := by
  have hbeq : (sn.type == tn.type) = false := by
    rw [beq_eq_false_iff_ne]
    exact hty
  have hany : (g.edges.any (fun e => e.source == s && e.target == t)) = true := by
    rw [List.any_eq_true]
    obtain ⟨e, he, hs', ht'⟩ := hdup
    exact ⟨e, he, by simp [hs', ht']⟩
  simp [handleAddEdge, hs, ht, hbeq, hany]

/-- C7 witness: repeating the existing P1→R1 connect request on the
well-typed `mixedDupGraph` is silently ignored. -/
theorem handleAddEdge_duplicate_ignored_witness :
    handleAddEdge mixedDupGraph "P1" "R1" 5 =
      (mixedDupGraph, AddEdgeOutcome.duplicateIgnored) :=
  handleAddEdge_duplicate_ignored mixedDupGraph "P1" "R1" 5
    { id := "P1", type := NodeType.PROCESS } { id := "R1", type := NodeType.RESOURCE }
    (by decide) (by decide) (by decide) ⟨⟨"e1", "P1", "R1"⟩, by decide, rfl, rfl⟩

/-- C8: detection reads only vertex ids and kinds and the edge fields; two
graphs agreeing on those but with arbitrarily different presentation fields
(x, y, vx, vy, fx, fy) give equal results. -/
theorem detectDeadlock_presentation_independent (nodes1 : List Node) (edges1 : List Edge)
    (nodes2 : List Node) (edges2 : List Edge)
    (hn : nodes1.map (fun n => (n.id, n.type)) = nodes2.map (fun n => (n.id, n.type)))
    (he : edges1.map (fun e => (e.id, e.source, e.target)) =
      edges2.map (fun e => (e.id, e.source, e.target))) :
    detectDeadlock nodes1 edges1 = detectDeadlock nodes2 edges2 := by
  have hedges : edges1 = edges2 := edges_key_eq he
  subst hedges
  have hids : nodes1.map (fun n => n.id) = nodes2.map (fun n => n.id) :=
    nodes_key_ids nodes1 nodes2 hn
  have hadj : adjOf nodes1 edges1 = adjOf nodes2 edges1 := by
    funext v
    unfold adjOf
    rw [nodes_key_any v nodes1 nodes2 hn]
  have hP : typeIs nodes1 NodeType.PROCESS = typeIs nodes2 NodeType.PROCESS := by
    funext v
    exact nodes_key_typeIs NodeType.PROCESS v nodes1 nodes2 hn
  have hR : typeIs nodes1 NodeType.RESOURCE = typeIs nodes2 NodeType.RESOURCE := by
    funext v
    exact nodes_key_typeIs NodeType.RESOURCE v nodes1 nodes2 hn
  unfold detectDeadlock detectDeadlockO detectUniv
  rw [hadj, hids, hP, hR]

/-- C8 witness: two concrete graphs equal up to presentation state give the
same result. -/
theorem detectDeadlock_presentation_independent_witness :
    detectDeadlock presNodesA presEdges = detectDeadlock presNodesB presEdges :=
  detectDeadlock_presentation_independent presNodesA presEdges presNodesB presEdges
    (by decide) (by decide)

/-- C9: the generated id is NOT always fresh.  After add P1-1111, add
P2-1111, remove P1-1111 (all clock readings ending in 1111), a further add
with a clock reading ending in 1111 regenerates the live id `P2-1111`:
the count is back to 2 and the suffix repeats, so the new vertex collides
with a live vertex, contradicting the claimed uniqueness guarantee. -/
theorem addVertex_generatedId_collision :
    generatedId staleNodes NodeType.PROCESS t3 = "P2-1111" ∧
    (∃ n ∈ staleNodes, n.id = generatedId staleNodes NodeType.PROCESS t3) ∧
    ¬ ((handleAddNode staleNodes NodeType.PROCESS t3 0 0).map (fun n => n.id)).Nodup := by
  decide

/-- C10: the detector is total on arbitrary, even ill-formed, input: the
fuelled computation always completes (never returns `none`), and an edge
source absent from the vertex ids has no adjacency entry. -/
theorem detectDeadlock_total (nodes : List Node) (edges : List Edge) :
    detectDeadlockO nodes edges = some (detectDeadlock nodes edges) ∧
    (∀ v, (∀ n ∈ nodes, n.id ≠ v) → adjOf nodes edges v = none) := by
  refine ⟨detectDeadlockO_eq_some nodes edges, ?_⟩
  intro v hv
  unfold adjOf
  have hany : nodes.any (fun n => n.id == v) = false := by
    rw [← Bool.not_eq_true, List.any_eq_true]
    rintro ⟨n, hn, hid⟩
    exact hv n hn (by simpa using hid)
  rw [hany]
  simp

/-- C10 witness: a graph with a dangling edge and no vertices still gets a
result, and the absent source id has no adjacency entry. -/
theorem detectDeadlock_total_witness :
    detectDeadlockO danglingGraph.nodes danglingGraph.edges =
      some (detectDeadlock danglingGraph.nodes danglingGraph.edges) ∧
    adjOf danglingGraph.nodes danglingGraph.edges "X" = none :=
  ⟨(detectDeadlock_total danglingGraph.nodes danglingGraph.edges).1,
    (detectDeadlock_total danglingGraph.nodes danglingGraph.edges).2 "X" (by decide)⟩
